import Mathlib

/-!
Verification development for mcp-filesystem-go.

Two components are shallowly embedded from the Go sources:

* `MCPFS.PathV` models `pkg/filesystem/filesystem.go` (`ValidatePath` and the
  helpers it uses).  The filesystem itself is modelled as a finite association
  list from absolute, cleaned paths (lists of segments) to entries
  (directory / file / symlink).  Symlink targets are modelled as absolute
  paths.  `filepath.EvalSymlinks` is modelled by `resolveFrom`, a
  component-by-component walk with the same 255-link budget Go uses;
  `os.Stat` is modelled as successful full resolution.  The containment test
  in the Go code is `strings.HasPrefix` on the *rendered string forms* of the
  cleaned paths, and the model reproduces exactly that (`inAllowed`).
  Home-directory expansion and joining relative paths against the working
  directory happen before the parts the claims are about, so `validatePath`
  takes the already-absolute cleaned path (the Go variable `absolute`).

* `MCPFS.Editor` models `pkg/editor/editor.go` (`StrReplace`, `Insert`,
  `UndoEdit`, `createBackup`, `addToHistory`).  State is the target files, the
  backup directory (keyed by the unique generated backup names, modelled as
  increasing naturals standing for the nanosecond timestamps), and the global
  history list.  Writes to target files are modelled as always succeeding;
  backup-file creation takes an explicit success flag (`bOk`), and the
  `os.Remove` of an evicted backup takes a flag (`rmOk`) so that its failure
  path (logged and ignored in Go) is represented.  Go's `bufio.Scanner` line
  splitting (`ScanLines`: split at '\n', drop one trailing '\r' per line) is
  `splitLinesGo`; `strings.Count` / `strings.Contains` / `strings.Replace`
  with limit 1 are `countOcc` / `containsSub` / `replaceFirst`, with file
  contents as lists of characters.
-/

set_option maxRecDepth 16000

deriving instance DecidableEq for Except

namespace MCPFS

/-- Association-list lookup used to model reading a file (`os.ReadFile`) or a
directory entry from the modelled stores. -/
def lookupKV {α β : Type} [DecidableEq α] (k : α) : List (α × β) → Option β
  | [] => none
  | (k', v) :: rest => if k' = k then some v else lookupKV k rest

/-- Models `os.WriteFile`: overwrite the entry if the key is present,
otherwise create it at the end. -/
def writeKV {α β : Type} [DecidableEq α] (fs : List (α × β)) (k : α) (v : β) :
    List (α × β) :=
  match fs with
  | [] => [(k, v)]
  | (k', v') :: rest => if k' = k then (k, v) :: rest else (k', v') :: writeKV rest k v

/-- Models `os.Remove` on a stored key: drop every entry with that key. -/
def eraseKV {α β : Type} [DecidableEq α] (k : α) (fs : List (α × β)) :
    List (α × β) :=
  fs.filter (fun kv => kv.1 ≠ k)

end MCPFS

namespace MCPFS.PathV

/-- A cleaned absolute path, as its list of segments ("/a/b" is ["a", "b"],
"/" is []). -/
abbrev Path := List String

/-- A directory entry in the modelled filesystem: `filepath.EvalSymlinks`
distinguishes directories, regular files and symbolic links (whose targets the
model keeps as absolute paths). -/
inductive Entry where
  | dir : Entry
  | file : Entry
  | symlink (target : Path) : Entry
deriving DecidableEq

/-- The modelled filesystem: entries keyed by absolute cleaned path.  The root
`[]` is implicitly a directory. -/
abbrev FS := List (Path × Entry)

/-- Render a segment path back to the cleaned string form that the Go code
passes to `strings.HasPrefix` (`filepath.Clean` output, '/' separated). -/
def render (p : Path) : String :=
  match p with
  | [] => "/"
  | _ => p.foldl (fun acc s => acc ++ "/" ++ s) ""

/-- `strings.HasPrefix`, as a prefix test on the character sequences (for
valid UTF-8 a byte prefix is exactly a character prefix). -/
def strHasPrefix (pre s : String) : Bool :=
  pre.data.isPrefixOf s.data

/-- The containment test of `ValidatePath` (filesystem.go lines 102-107,
135-140, 153-158): `strings.HasPrefix(normalizePath(path), dir)` against each
allowed directory.  On Linux `normalizePath` is `filepath.Clean`, so this is a
raw string-prefix test on the rendered cleaned paths. -/
def inAllowed (allowed : List Path) (p : Path) : Bool :=
  allowed.any (fun d => strHasPrefix (render d) (render p))

/-- Errors of the resolution walk (`filepath.EvalSymlinks`). -/
inductive RErr where
  | notExist : RErr
  | notDir : RErr
  | tooManyLinks : RErr
deriving DecidableEq

/-- Go's `filepath.EvalSymlinks` follows at most 255 links. -/
def linkBudget : Nat := 255

/-- One pass of Go's `walkSymlinks` loop up to the next symbolic link:
resolve each segment against the already-resolved prefix; a missing entry is
an error, as is a non-final regular file; a symlink interrupts the pass,
yielding (`Sum.inr`) its (absolute) target joined with the remaining
segments. -/
def walkOnce (fs : FS) (resolved : Path) (rest : Path) :
    Except RErr Path ⊕ Path :=
  match rest with
  | [] => .inl (.ok resolved)
  | seg :: rest' =>
    match lookupKV (resolved ++ [seg]) fs with
    | none => .inl (.error .notExist)
    | some .dir => walkOnce fs (resolved ++ [seg]) rest'
    | some .file =>
      .inl (if rest' = [] then .ok (resolved ++ [seg]) else .error .notDir)
    | some (.symlink tgt) => .inr (tgt ++ rest')

/-- Symlink resolution: iterate `walkOnce` from the root, consuming one unit
of the link budget per symbolic link followed; an exhausted budget is the
ELOOP error. -/
def resolveFrom (fs : FS) (fuel : Nat) (p : Path) : Except RErr Path :=
  match walkOnce fs [] p with
  | .inl r => r
  | .inr p' =>
    match fuel with
    | 0 => .error .tooManyLinks
    | fuel' + 1 => resolveFrom fs fuel' p'

/-- `filepath.EvalSymlinks` on an absolute cleaned path. -/
def evalSymlinks (fs : FS) (p : Path) : Except RErr Path :=
  resolveFrom fs linkBudget p

/-- `os.Stat` succeeds exactly when the path fully resolves to an existing
entry (stat follows symlinks). -/
def statOk (fs : FS) (p : Path) : Bool :=
  match evalSymlinks fs p with
  | .ok _ => true
  | .error _ => false

/-- The error taxonomy of `ValidatePath` per the spec: `accessDenied` for the
three "access denied - ..." returns, `invalidPath` for the two parent-related
resolution failures. -/
inductive VErr where
  | accessDenied : VErr
  | invalidPath : VErr
deriving DecidableEq

/-- `FileManager.ValidatePath` (filesystem.go lines 98-165), starting from the
cleaned absolute path: pre-check containment of the requested path; resolve
symlinks; if resolution fails, stat the parent (`filepath.Dir`), resolve the
parent's symlinks, check containment of the resolved parent and on success
return the *requested* absolute path; if resolution succeeds, check
containment of the real path and return it. -/
def validatePath (fs : FS) (allowed : List Path) (absolute : Path) :
    Except VErr Path :=
  if ¬ inAllowed allowed absolute then .error .accessDenied
  else
    match evalSymlinks fs absolute with
    | .ok realPath =>
      if inAllowed allowed realPath then .ok realPath
      else .error .accessDenied
    | .error _ =>
      let parentDir := absolute.dropLast
      if ¬ statOk fs parentDir then .error .invalidPath
      else
        match evalSymlinks fs parentDir with
        | .error _ => .error .invalidPath
        | .ok realParentPath =>
          if inAllowed allowed realParentPath then .ok absolute
          else .error .accessDenied

/-- Segment-wise containment: what the spec requires the boundary check to be
(equal to or a descendant of an allowed root, comparing full path segments). -/
def segWithin (allowed : List Path) (p : Path) : Bool :=
  allowed.any (fun d => d.isPrefixOf p)

end MCPFS.PathV

namespace MCPFS.Editor

/-- The error taxonomy of the editor per the spec's classification of the
concrete error returns in editor.go: `notFound` for "string not found in
file" and "file doesn't exist; use line_number=0 ..."; `ambiguousMatch` for
"string appears %d times"; `outOfRange` for "invalid line number";
`noHistory` for "no edit history found for file"; `backupFailed` for a failed
backup write; `ioError` for the remaining propagated I/O failures. -/
inductive EErr where
  | ioError : EErr
  | notFound : EErr
  | ambiguousMatch : EErr
  | outOfRange : EErr
  | noHistory : EErr
  | backupFailed : EErr
deriving DecidableEq

/-- `EditHistory` (editor.go lines 15-20): target file and backup location.
The unique generated backup name (base name plus nanosecond timestamp) is
modelled as a natural number drawn from a strictly increasing counter. -/
structure EditRecord where
  filePath : String
  backupPath : Nat
deriving DecidableEq

/-- The state of the `EditManager` together with the files it touches:
target-file contents, the backup directory contents, the global history list
(oldest first, as in the Go slice), and the counter generating unique backup
names. -/
structure EMState where
  files : List (String × List Char)
  backups : List (Nat × List Char)
  history : List EditRecord
  nextId : Nat
deriving DecidableEq

/-- `bufio.ScanLines` strips one trailing carriage return from each line. -/
def dropCR (l : List Char) : List Char :=
  if l.getLast? = some '\r' then l.dropLast else l

/-- The recursion of `splitLinesGo`, made structural on a fuel that at every
call is at least the length of the remaining input (each step consumes at
least one character, so the fuel never runs out when seeded with the input
length). -/
def splitLinesAux (fuel : Nat) (s : List Char) : List (List Char) :=
  match fuel with
  | 0 => []
  | fuel' + 1 =>
    match s with
    | [] => []
    | _ :: _ =>
      let line := s.takeWhile (fun c => c ≠ '\n')
      match s.dropWhile (fun c => c ≠ '\n') with
      | [] => [dropCR line]
      | _ :: rest => dropCR line :: splitLinesAux fuel' rest

/-- Reading a file with `bufio.Scanner` (editor.go lines 169-172): split the
content at each '\n' (the terminator is discarded, a final segment without a
terminator is still a line, and an empty file yields no lines), stripping one
trailing '\r' per line. -/
def splitLinesGo (s : List Char) : List (List Char) :=
  splitLinesAux s.length s

/-- `strings.Contains` on the modelled contents. -/
def containsSub (s pat : List Char) : Bool :=
  match s with
  | [] => pat.isEmpty
  | _ :: s' => pat.isPrefixOf s || containsSub s' pat

/-- Non-overlapping occurrence counting for a non-empty pattern `c :: pt`:
count a match and continue after it, as `strings.Count` does via repeated
`Index` calls.  The recursion is structural on a fuel that at every call is
at least the length of the remaining input (each step consumes at least one
character). -/
def countAux (fuel : Nat) (s : List Char) (c : Char) (pt : List Char) : Nat :=
  match fuel with
  | 0 => 0
  | fuel' + 1 =>
    match s with
    | [] => 0
    | _ :: s' =>
      if (c :: pt).isPrefixOf s then 1 + countAux fuel' (s'.drop pt.length) c pt
      else countAux fuel' s' c pt

/-- `strings.Count` (editor.go line 106): for the empty pattern Go returns
one more than the rune count; otherwise the non-overlapping count. -/
def countOcc (s pat : List Char) : Nat :=
  match pat with
  | [] => s.length + 1
  | c :: pt => countAux s.length s c pt

/-- `strings.Replace(s, old, new, 1)` (editor.go line 118): substitute the
first occurrence of `old` (an empty `old` inserts `new` in front). -/
def replaceFirst (s old new : List Char) : List Char :=
  match old with
  | [] => new ++ s
  | _ :: _ =>
    match s with
    | [] => []
    | a :: s' =>
      if old.isPrefixOf s then new ++ s.drop old.length
      else a :: replaceFirst s' old new

/-- `createBackup` (editor.go lines 48-64): read the file (failure if it is
missing), generate the unique backup name, and write the backup; the write's
success is the injected flag `bOk`.  On failure nothing is recorded. -/
def createBackup (bOk : Bool) (p : String) (st : EMState) :
    Except EErr Nat × EMState :=
  match lookupKV p st.files with
  | none => (.error .ioError, st)
  | some content =>
    if bOk then
      (.ok st.nextId,
       { st with backups := st.backups ++ [(st.nextId, content)],
                 nextId := st.nextId + 1 })
    else (.error .backupFailed, st)

/-- `addToHistory` (editor.go lines 67-88): append the record; if the history
then holds more than 100 records, try to remove the oldest record's backup
file (`rmOk` injects the `os.Remove` outcome; failure is only logged) and
drop the oldest record in either case. -/
def addToHistory (rmOk : Bool) (p : String) (backupPath : Nat) (st : EMState) :
    EMState :=
  let st' := { st with history := st.history ++ [⟨p, backupPath⟩] }
  if st'.history.length > 100 then
    match st'.history with
    | [] => st'
    | oldest :: rest =>
      { st' with
        backups := if rmOk then eraseKV oldest.backupPath st'.backups
                   else st'.backups,
        history := rest }
  else st'

/-- `StrReplace` (editor.go lines 91-129): read the file, fail with
`notFound` if `old` does not occur, with `ambiguousMatch` if it occurs more
than once, otherwise back up, substitute the single occurrence, write, and
record the edit. -/
def strReplace (bOk rmOk : Bool) (p : String) (old new : List Char)
    (st : EMState) : Except EErr Unit × EMState :=
  match lookupKV p st.files with
  | none => (.error .ioError, st)
  | some content =>
    if ¬ containsSub content old then (.error .notFound, st)
    else if countOcc content old > 1 then (.error .ambiguousMatch, st)
    else
      match createBackup bOk p st with
      | (.error e, st') => (.error e, st')
      | (.ok backupPath, st') =>
        let newContent := replaceFirst content old new
        let st'' := { st' with files := writeKV st'.files p newContent }
        (.ok (), addToHistory rmOk p backupPath st'')

/-- `Insert` (editor.go lines 134-211).  Missing file: creation is allowed
only for `lineNumber` 0 or -1 and writes `text` followed by a newline, with
no backup and no history record (parent-directory creation is not part of the
modelled state).  Existing file: split into lines, substitute -1 by the line
count, range-check, back up, splice `text` in as one element, rejoin with
single newlines, write, and record the edit. -/
def insert (bOk rmOk : Bool) (p : String) (lineNumber : Int)
    (text : List Char) (st : EMState) : Except EErr Unit × EMState :=
  match lookupKV p st.files with
  | none =>
    if lineNumber ≠ 0 ∧ lineNumber ≠ -1 then (.error .notFound, st)
    else (.ok (), { st with files := writeKV st.files p (text ++ ['\n']) })
  | some content =>
    let lines := splitLinesGo content
    let ln : Int := if lineNumber = -1 then (lines.length : Int) else lineNumber
    if ln < 0 ∨ ln > (lines.length : Int) then (.error .outOfRange, st)
    else
      match createBackup bOk p st with
      | (.error e, st') => (.error e, st')
      | (.ok backupPath, st') =>
        let n := ln.toNat
        let newLines := lines.take n ++ [text] ++ lines.drop n
        let newContent := List.intercalate ['\n'] newLines
        let st'' := { st' with files := writeKV st'.files p newContent }
        (.ok (), addToHistory rmOk p backupPath st'')

/-- Find the most recent history record for a file, returning it together
with the history list with exactly that record removed (the reverse scan of
`UndoEdit`, editor.go lines 219-225, combined with the removal at line 249). -/
def removeLastFor (p : String) (hist : List EditRecord) :
    Option (EditRecord × List EditRecord) :=
  match hist with
  | [] => none
  | r :: rest =>
    match removeLastFor p rest with
    | some (rec, rest') => some (rec, r :: rest')
    | none => if r.filePath = p then some (r, rest) else none

/-- `UndoEdit` (editor.go lines 214-252): find the most recent record for the
file (`noHistory` if none), read its backup (`ioError` if unreadable),
restore the file from it, remove the backup, and remove the record. -/
def undoEdit (p : String) (st : EMState) : Except EErr Unit × EMState :=
  match removeLastFor p st.history with
  | none => (.error .noHistory, st)
  | some (rec, hist') =>
    match lookupKV rec.backupPath st.backups with
    | none => (.error .ioError, st)
    | some backupContent =>
      (.ok (),
       { st with files := writeKV st.files p backupContent,
                 backups := eraseKV rec.backupPath st.backups,
                 history := hist' })

/-- Well-formedness of the modelled state: every backup name already stored
or referenced is below the fresh-name counter (Go guarantees this by using
strictly increasing timestamps). -/
def WF (st : EMState) : Prop :=
  (∀ kv ∈ st.backups, kv.1 < st.nextId) ∧
  (∀ r ∈ st.history, r.backupPath < st.nextId)

/-- A mutating operation of the editor, for stating sequences of edits. -/
inductive EditOp where
  | rep (old new : List Char) : EditOp
  | ins (lineNumber : Int) (text : List Char) : EditOp

/-- Dispatch one mutating operation on one file. -/
def applyOp (bOk rmOk : Bool) (p : String) (st : EMState) (op : EditOp) :
    Except EErr Unit × EMState :=
  match op with
  | .rep old new => strReplace bOk rmOk p old new st
  | .ins ln text => insert bOk rmOk p ln text st

/-- Apply a sequence of mutating operations, stopping at the first failure. -/
def applyOps (rmOk : Bool) (p : String) (ops : List EditOp) (st : EMState) :
    Except EErr Unit × EMState :=
  match ops with
  | [] => (.ok (), st)
  | op :: rest =>
    match applyOp true rmOk p st op with
    | (.ok _, st') => applyOps rmOk p rest st'
    | (.error e, st') => (.error e, st')

/-- Call `undoEdit` a number of times, stopping at the first failure. -/
def undoTimes (p : String) (n : Nat) (st : EMState) :
    Except EErr Unit × EMState :=
  match n with
  | 0 => (.ok (), st)
  | n' + 1 =>
    match undoEdit p st with
    | (.ok _, st') => undoTimes p n' st'
    | (.error e, st') => (.error e, st')

/-- A fresh session holding the single file "f" with content "a". -/
def st0 : EMState := ⟨[("f", ['a'])], [], [], 0⟩

/-- One always-succeeding edit to the file "f": replace its entire current
one-character content by the other character, tracking cumulative success in
the flag. -/
def flipStepChk (acc : Bool × EMState) : Bool × EMState :=
  match lookupKV "f" acc.2.files with
  | some c =>
    let r := strReplace true true "f" c (if c = ['a'] then ['b'] else ['a']) acc.2
    (acc.1 && (if r.1 = .ok () then true else false), r.2)
  | none => (false, acc.2)

/-- One `undoEdit` on the file "f", tracking cumulative success in the flag. -/
def undoChk (acc : Bool × EMState) : Bool × EMState :=
  let r := undoEdit "f" acc.2
  (acc.1 && (if r.1 = .ok () then true else false), r.2)

end MCPFS.Editor

namespace MCPFS

theorem lookupKV_writeKV_self {α β : Type} [DecidableEq α]
    (fs : List (α × β)) (k : α) (v : β) :
    lookupKV k (writeKV fs k v) = some v := by
  induction fs with
  | nil => simp [writeKV, lookupKV]
  | cons kv rest ih =>
    by_cases h : kv.1 = k
    · simp [writeKV, h, lookupKV]
    · simp [writeKV, h, lookupKV, ih]

theorem lookupKV_writeKV_other {α β : Type} [DecidableEq α]
    (fs : List (α × β)) (k k' : α) (v : β) (hne : k' ≠ k) :
    lookupKV k' (writeKV fs k v) = lookupKV k' fs := by
  have hkk : ¬ k = k' := fun h => hne h.symm
  induction fs with
  | nil =>
    simp only [writeKV, lookupKV]
    rw [if_neg hkk]
  | cons kv rest ih =>
    by_cases h : kv.1 = k
    · subst h
      simp only [writeKV, if_pos rfl, lookupKV]
      rw [if_neg hkk, if_neg hkk]
    · simp only [writeKV, if_neg h, lookupKV, ih]

theorem writeKV_cancel {α β : Type} [DecidableEq α]
    (fs : List (α × β)) (k : α) (v : β) (h : lookupKV k fs = some v) :
    writeKV fs k v = fs := by
  induction fs with
  | nil => simp [lookupKV] at h
  | cons kv rest ih =>
    by_cases hk : kv.1 = k
    · simp [lookupKV, hk] at h
      cases kv
      simp_all [writeKV]
    · simp [lookupKV, hk] at h
      simp [writeKV, hk, ih h]

theorem writeKV_writeKV {α β : Type} [DecidableEq α]
    (fs : List (α × β)) (k : α) (v w : β) :
    writeKV (writeKV fs k v) k w = writeKV fs k w := by
  induction fs with
  | nil => simp [writeKV]
  | cons kv rest ih =>
    by_cases h : kv.1 = k
    · simp [writeKV, h]
    · simp [writeKV, h, ih]

theorem lookupKV_append_right {α β : Type} [DecidableEq α]
    (fs : List (α × β)) (k : α) (v : β)
    (h : ∀ kv ∈ fs, kv.1 ≠ k) :
    lookupKV k (fs ++ [(k, v)]) = some v := by
  induction fs with
  | nil => simp [lookupKV]
  | cons kv rest ih =>
    have h1 : kv.1 ≠ k := h kv (by simp)
    simp only [List.cons_append, lookupKV, if_neg h1]
    exact ih (fun kv' hkv' => h kv' (by simp [hkv']))

theorem lookupKV_eraseKV_self {α β : Type} [DecidableEq α]
    (fs : List (α × β)) (k : α) :
    lookupKV k (eraseKV k fs) = none := by
  induction fs with
  | nil => simp [eraseKV, lookupKV]
  | cons kv rest ih =>
    by_cases h : kv.1 = k
    · simpa [eraseKV, h] using ih
    · simpa [eraseKV, h, lookupKV] using ih

theorem eraseKV_append_fresh {α β : Type} [DecidableEq α]
    (fs : List (α × β)) (k : α) (v : β)
    (h : ∀ kv ∈ fs, kv.1 ≠ k) :
    eraseKV k (fs ++ [(k, v)]) = fs := by
  induction fs with
  | nil => simp [eraseKV]
  | cons kv rest ih =>
    have h1 : kv.1 ≠ k := h kv (by simp)
    simp only [List.cons_append, eraseKV, List.filter_cons]
    rw [if_pos (by simpa using h1)]
    have := ih (fun kv' hkv' => h kv' (by simp [hkv']))
    simpa [eraseKV] using this

theorem eraseKV_comm_fresh {α β : Type} [DecidableEq α]
    (fs : List (α × β)) (j k : α) (v : β) :
    eraseKV j (fs ++ [(k, v)]) = eraseKV j fs ++ (if k = j then [] else [(k, v)]) := by
  simp [eraseKV, List.filter_append]
  by_cases hkj : k = j <;> simp [hkj]

theorem lookupKV_eq_none {α β : Type} [DecidableEq α]
    (fs : List (α × β)) (k : α) (h : ∀ kv ∈ fs, kv.1 ≠ k) :
    lookupKV k fs = none := by
  induction fs with
  | nil => simp [lookupKV]
  | cons kv rest ih =>
    have h1 : kv.1 ≠ k := h kv (by simp)
    simp only [lookupKV, if_neg h1]
    exact ih (fun kv' hkv' => h kv' (by simp [hkv']))

theorem mem_eraseKV {α β : Type} [DecidableEq α]
    {fs : List (α × β)} {j : α} {kv : α × β} (h : kv ∈ eraseKV j fs) :
    kv ∈ fs :=
  List.mem_of_mem_filter h

end MCPFS

namespace MCPFS.Editor

theorem countAux_pos_iff (c : Char) (pt : List Char) :
    ∀ (fuel : Nat) (s : List Char), s.length ≤ fuel →
      (0 < countAux fuel s c pt ↔ containsSub s (c :: pt) = true) := by
  intro fuel
  induction fuel with
  | zero =>
    intro s hs
    have hnil : s = [] := by
      cases s with
      | nil => rfl
      | cons a s' => simp at hs
    subst hnil
    simp [countAux, containsSub]
  | succ f ih =>
    intro s hs
    match s with
    | [] => simp [countAux, containsSub]
    | a :: s' =>
      simp only [countAux, containsSub]
      cases hp : (c :: pt).isPrefixOf (a :: s') with
      | true => simp [hp]
      | false =>
        simp only [hp, if_false, Bool.false_or]
        exact ih s' (by simp at hs; omega)

theorem containsSub_iff_countOcc_pos (s pat : List Char) :
    containsSub s pat = true ↔ 0 < countOcc s pat := by
  match pat with
  | [] =>
    constructor
    · intro _
      simp [countOcc]
    · intro _
      cases s <;> simp [containsSub, List.isPrefixOf]
  | c :: pt =>
    rw [countOcc]
    exact (countAux_pos_iff c pt s.length s (le_refl _)).symm

theorem addToHistory_noevict (rmOk : Bool) (p : String) (b : Nat)
    (st : EMState) (h : st.history.length + 1 ≤ 100) :
    addToHistory rmOk p b st = { st with history := st.history ++ [⟨p, b⟩] } := by
  have hlen : ¬ (st.history ++ [(⟨p, b⟩ : EditRecord)]).length > 100 := by
    simp
    omega
  simp only [addToHistory]
  rw [if_neg hlen]

theorem addToHistory_evict (rmOk : Bool) (p : String) (b : Nat)
    (st : EMState) (oldest : EditRecord) (hrest : List EditRecord)
    (hh : st.history = oldest :: hrest)
    (h : ¬ st.history.length + 1 ≤ 100) :
    addToHistory rmOk p b st =
      { st with
        backups := if rmOk then eraseKV oldest.backupPath st.backups
                   else st.backups,
        history := hrest ++ [⟨p, b⟩] } := by
  rw [hh] at h
  have hlen : ((oldest :: hrest) ++ [(⟨p, b⟩ : EditRecord)]).length > 100 := by
    simp at h ⊢
    omega
  simp only [addToHistory, hh]
  rw [if_pos hlen]
  simp only [List.cons_append]

theorem removeLastFor_append (p : String) (l : List EditRecord)
    (r : EditRecord) (hr : r.filePath = p) :
    removeLastFor p (l ++ [r]) = some (r, l) := by
  induction l with
  | nil => simp [removeLastFor, hr]
  | cons a l ih => simp [removeLastFor, ih]

theorem removeLastFor_none (p : String) (l : List EditRecord)
    (h : ∀ r ∈ l, r.filePath ≠ p) :
    removeLastFor p l = none := by
  induction l with
  | nil => rfl
  | cons a l ih =>
    have ha : a.filePath ≠ p := h a (by simp)
    simp [removeLastFor, ih (fun r hr => h r (by simp [hr])), ha]

end MCPFS.Editor

namespace MCPFS.Editor

theorem strReplace_ok_char (bOk rmOk : Bool) (p : String) (old new : List Char)
    (st st' : EMState)
    (h : strReplace bOk rmOk p old new st = (.ok (), st')) :
    bOk = true ∧ ∃ c, lookupKV p st.files = some c ∧
      containsSub c old = true ∧ countOcc c old ≤ 1 ∧
      st' = addToHistory rmOk p st.nextId
        ⟨writeKV st.files p (replaceFirst c old new),
         st.backups ++ [(st.nextId, c)], st.history, st.nextId + 1⟩ := by
  cases hlk : lookupKV p st.files with
  | none =>
    simp only [strReplace, hlk] at h
    simp at h
  | some c =>
    simp only [strReplace, hlk] at h
    by_cases hct : containsSub c old = true
    · rw [if_neg (not_not_intro hct)] at h
      by_cases hcnt : countOcc c old > 1
      · rw [if_pos hcnt] at h
        simp at h
      · rw [if_neg hcnt] at h
        simp only [createBackup, hlk] at h
        cases bOk with
        | false => simp at h
        | true =>
          simp only [if_pos] at h
          simp only [Prod.mk.injEq] at h
          exact ⟨rfl, c, rfl, hct, by omega, h.2.symm⟩
    · rw [if_pos hct] at h
      simp at h

theorem insert_ok_char (bOk rmOk : Bool) (p : String) (ln : Int)
    (text : List Char) (st st' : EMState) (c : List Char)
    (hlk : lookupKV p st.files = some c)
    (h : insert bOk rmOk p ln text st = (.ok (), st')) :
    bOk = true ∧
      st' = addToHistory rmOk p st.nextId
        ⟨writeKV st.files p
           (List.intercalate ['\n']
             ((splitLinesGo c).take
                (if ln = -1 then ((splitLinesGo c).length : Int) else ln).toNat
              ++ [text]
              ++ (splitLinesGo c).drop
                (if ln = -1 then ((splitLinesGo c).length : Int) else ln).toNat)),
         st.backups ++ [(st.nextId, c)], st.history, st.nextId + 1⟩ := by
  simp only [insert, hlk] at h
  by_cases hrng : (if ln = -1 then ((splitLinesGo c).length : Int) else ln) < 0 ∨
      (if ln = -1 then ((splitLinesGo c).length : Int) else ln) >
        ((splitLinesGo c).length : Int)
  · rw [if_pos hrng] at h
    simp at h
  · rw [if_neg hrng] at h
    simp only [createBackup, hlk] at h
    cases bOk with
    | false => simp at h
    | true =>
      simp only [if_pos] at h
      simp only [Prod.mk.injEq] at h
      exact ⟨rfl, h.2.symm⟩

theorem insert_create_char (bOk rmOk : Bool) (p : String) (ln : Int)
    (text : List Char) (st st' : EMState)
    (hlk : lookupKV p st.files = none)
    (h : insert bOk rmOk p ln text st = (.ok (), st')) :
    (ln = 0 ∨ ln = -1) ∧
      st' = { st with files := writeKV st.files p (text ++ ['\n']) } := by
  simp only [insert, hlk] at h
  by_cases hpos : ln ≠ 0 ∧ ln ≠ -1
  · rw [if_pos hpos] at h
    simp at h
  · rw [if_neg hpos] at h
    simp only [Prod.mk.injEq] at h
    refine ⟨?_, h.2.symm⟩
    by_cases h0 : ln = 0
    · exact Or.inl h0
    · by_cases h1 : ln = -1
      · exact Or.inr h1
      · exact absurd ⟨h0, h1⟩ hpos

end MCPFS.Editor

namespace MCPFS.Editor

theorem WF_step (st : EMState) (p : String) (c newC : List Char)
    (hWF : WF st) :
    WF ⟨writeKV st.files p newC, st.backups ++ [(st.nextId, c)],
        st.history ++ [⟨p, st.nextId⟩], st.nextId + 1⟩ := by
  constructor
  · intro kv hkv
    show kv.1 < st.nextId + 1
    rcases List.mem_append.1 hkv with hin | hin
    · have := hWF.1 kv hin
      omega
    · have hkv' : kv = (st.nextId, c) := by simpa using hin
      rw [hkv']
      omega
  · intro r hr
    show r.backupPath < st.nextId + 1
    rcases List.mem_append.1 hr with hin | hin
    · have := hWF.2 r hin
      omega
    · have hr' : r = ⟨p, st.nextId⟩ := by simpa using hin
      rw [hr']
      show st.nextId < st.nextId + 1
      omega

theorem undoEdit_nextId (p : String) (st : EMState) (m : Nat) :
    undoEdit p { st with nextId := m } =
      ((undoEdit p st).1, { (undoEdit p st).2 with nextId := m }) := by
  simp only [undoEdit]
  rcases hr : removeLastFor p st.history with _ | ⟨rec, hist'⟩
  · simp [hr]
  · rcases hb : lookupKV rec.backupPath st.backups with _ | content
    · simp [hr, hb]
    · simp [hr, hb]

theorem undo_mid_noevict (st : EMState) (p : String) (c newC : List Char)
    (rmOk : Bool) (hWF : WF st) (hc : lookupKV p st.files = some c)
    (hcap : st.history.length + 1 ≤ 100) :
    undoEdit p (addToHistory rmOk p st.nextId
      ⟨writeKV st.files p newC, st.backups ++ [(st.nextId, c)],
       st.history, st.nextId + 1⟩) =
      (.ok (), { st with nextId := st.nextId + 1 }) := by
  rw [addToHistory_noevict rmOk p st.nextId
    ⟨writeKV st.files p newC, st.backups ++ [(st.nextId, c)],
     st.history, st.nextId + 1⟩ hcap]
  have hfresh : ∀ kv ∈ st.backups, kv.1 ≠ st.nextId :=
    fun kv hkv => Nat.ne_of_lt (hWF.1 kv hkv)
  have hlook := lookupKV_append_right st.backups st.nextId c hfresh
  have herase := eraseKV_append_fresh st.backups st.nextId c hfresh
  have hww : writeKV (writeKV st.files p newC) p c = st.files := by
    rw [writeKV_writeKV]
    exact writeKV_cancel _ _ _ hc
  simp [undoEdit, removeLastFor_append, hlook, herase, hww]

end MCPFS.Editor

namespace MCPFS.Editor

theorem undo_mid_general (st : EMState) (p : String) (c newC : List Char)
    (rmOk : Bool) (hWF : WF st) (hc : lookupKV p st.files = some c) :
    ∃ st'',
      undoEdit p (addToHistory rmOk p st.nextId
        ⟨writeKV st.files p newC, st.backups ++ [(st.nextId, c)],
         st.history, st.nextId + 1⟩) = (.ok (), st'') ∧
      st''.files = st.files ∧
      lookupKV st.nextId st''.backups = none ∧
      st''.history =
        (addToHistory rmOk p st.nextId
          ⟨writeKV st.files p newC, st.backups ++ [(st.nextId, c)],
           st.history, st.nextId + 1⟩).history.dropLast := by
  have hfresh : ∀ kv ∈ st.backups, kv.1 ≠ st.nextId :=
    fun kv hkv => Nat.ne_of_lt (hWF.1 kv hkv)
  have hww : writeKV (writeKV st.files p newC) p c = st.files := by
    rw [writeKV_writeKV]
    exact writeKV_cancel _ _ _ hc
  by_cases hcap : st.history.length + 1 ≤ 100
  · refine ⟨{ st with nextId := st.nextId + 1 },
      undo_mid_noevict st p c newC rmOk hWF hc hcap, rfl, ?_, ?_⟩
    · exact lookupKV_eq_none st.backups st.nextId hfresh
    · rw [addToHistory_noevict rmOk p st.nextId
        ⟨writeKV st.files p newC, st.backups ++ [(st.nextId, c)],
         st.history, st.nextId + 1⟩ hcap]
      simp
  · obtain ⟨oldest, hrest, hh⟩ : ∃ o l, st.history = o :: l := by
      cases hh : st.history with
      | nil =>
        rw [hh] at hcap
        simp at hcap
      | cons a l => exact ⟨a, l, rfl⟩
    have hold : oldest.backupPath < st.nextId :=
      hWF.2 oldest (by rw [hh]; exact List.mem_cons_self _ _)
    rw [addToHistory_evict rmOk p st.nextId
      ⟨writeKV st.files p newC, st.backups ++ [(st.nextId, c)],
       st.history, st.nextId + 1⟩ oldest hrest hh hcap]
    have hcomm : eraseKV oldest.backupPath (st.backups ++ [(st.nextId, c)]) =
        eraseKV oldest.backupPath st.backups ++ [(st.nextId, c)] := by
      rw [eraseKV_comm_fresh]
      rw [if_neg (fun he => absurd he.symm (Nat.ne_of_lt hold))]
    have hfreshE : ∀ kv ∈ eraseKV oldest.backupPath st.backups,
        kv.1 ≠ st.nextId :=
      fun kv hkv => hfresh kv (mem_eraseKV hkv)
    cases rmOk with
    | true =>
      refine ⟨⟨st.files, eraseKV oldest.backupPath st.backups, hrest,
        st.nextId + 1⟩, ?_, rfl, ?_, ?_⟩
      · have hlook := lookupKV_append_right
          (eraseKV oldest.backupPath st.backups) st.nextId c hfreshE
        have herase := eraseKV_append_fresh
          (eraseKV oldest.backupPath st.backups) st.nextId c hfreshE
        simp [undoEdit, removeLastFor_append, hcomm, hlook, herase, hww]
      · exact lookupKV_eq_none _ st.nextId hfreshE
      · simp
    | false =>
      refine ⟨⟨st.files, st.backups, hrest, st.nextId + 1⟩, ?_, rfl, ?_, ?_⟩
      · have hlook := lookupKV_append_right st.backups st.nextId c hfresh
        have herase := eraseKV_append_fresh st.backups st.nextId c hfresh
        simp [undoEdit, removeLastFor_append, hlook, herase, hww]
      · exact lookupKV_eq_none _ st.nextId hfresh
      · simp

end MCPFS.Editor

namespace MCPFS.Editor

theorem applyOp_ok_char (rmOk : Bool) (p : String) (st st' : EMState)
    (op : EditOp) (c : List Char) (hlk : lookupKV p st.files = some c)
    (h : applyOp true rmOk p st op = (.ok (), st')) :
    ∃ newC, st' = addToHistory rmOk p st.nextId
      ⟨writeKV st.files p newC, st.backups ++ [(st.nextId, c)],
       st.history, st.nextId + 1⟩ := by
  cases op with
  | rep old new =>
    obtain ⟨-, c', hlk', -, -, hst⟩ :=
      strReplace_ok_char true rmOk p old new st st' h
    have hcc : c = c' := by
      rw [hlk] at hlk'
      exact Option.some.inj hlk'
    subst hcc
    exact ⟨replaceFirst c old new, hst⟩
  | ins ln text =>
    obtain ⟨-, hst⟩ := insert_ok_char true rmOk p ln text st st' c hlk h
    exact ⟨_, hst⟩

theorem step_roundtrip (rmOk : Bool) (p : String) (st st1 : EMState)
    (op : EditOp) (c : List Char) (hWF : WF st)
    (hlk : lookupKV p st.files = some c)
    (hcap : st.history.length + 1 ≤ 100)
    (h : applyOp true rmOk p st op = (.ok (), st1)) :
    ∃ newC,
      st1 = ⟨writeKV st.files p newC, st.backups ++ [(st.nextId, c)],
        st.history ++ [⟨p, st.nextId⟩], st.nextId + 1⟩ ∧
      undoEdit p st1 = (.ok (), { st with nextId := st.nextId + 1 }) := by
  obtain ⟨newC, hst⟩ := applyOp_ok_char rmOk p st st1 op c hlk h
  rw [addToHistory_noevict rmOk p st.nextId
    ⟨writeKV st.files p newC, st.backups ++ [(st.nextId, c)],
     st.history, st.nextId + 1⟩ hcap] at hst
  refine ⟨newC, hst, ?_⟩
  have h2 := undo_mid_noevict st p c newC rmOk hWF hlk hcap
  rw [addToHistory_noevict rmOk p st.nextId
    ⟨writeKV st.files p newC, st.backups ++ [(st.nextId, c)],
     st.history, st.nextId + 1⟩ hcap] at h2
  rw [hst]
  exact h2

theorem undoTimes_succ_last (p : String) (n : Nat) (st : EMState) :
    undoTimes p (n + 1) st =
      match undoTimes p n st with
      | (.ok _, s) => undoEdit p s
      | (.error e, s) => (.error e, s) := by
  induction n generalizing st with
  | zero =>
    simp only [undoTimes]
    cases h : undoEdit p st with
    | mk r s =>
      cases r with
      | ok u =>
        cases u
        simp [undoTimes]
      | error e => simp [undoTimes]
  | succ m ih =>
    simp only [undoTimes]
    cases h : undoEdit p st with
    | mk r s =>
      cases r with
      | ok u =>
        cases u
        exact ih s
      | error e => rfl

theorem applyOps_roundtrip (rmOk : Bool) (p : String) :
    ∀ (ops : List EditOp) (st st' : EMState) (c : List Char),
      WF st → lookupKV p st.files = some c →
      st.history.length + ops.length ≤ 100 →
      applyOps rmOk p ops st = (.ok (), st') →
      undoTimes p ops.length st' =
        (.ok (), { st with nextId := st.nextId + ops.length }) := by
  intro ops
  induction ops with
  | nil =>
    intro st st' c hWF hlk hcap h
    simp only [applyOps, Prod.mk.injEq] at h
    obtain ⟨-, h2⟩ := h
    subst h2
    simp [undoTimes]
  | cons op rest ih =>
    intro st st' c hWF hlk hcap h
    simp only [applyOps] at h
    cases h1 : applyOp true rmOk p st op with
    | mk r1 st1 =>
      rw [h1] at h
      cases r1 with
      | error e => simp at h
      | ok u =>
        cases u
        have hcap1 : st.history.length + 1 ≤ 100 := by
          simp at hcap
          omega
        obtain ⟨newC, hst1, hundo⟩ :=
          step_roundtrip rmOk p st st1 op c hWF hlk hcap1 h1
        have hWF1 : WF st1 := by
          rw [hst1]
          exact WF_step st p c newC hWF
        have hlk1 : lookupKV p st1.files = some newC := by
          rw [hst1]
          exact lookupKV_writeKV_self st.files p newC
        have hlen1 : st1.history.length + rest.length ≤ 100 := by
          rw [hst1]
          simp at hcap ⊢
          omega
        have hrec := ih st1 st' newC hWF1 hlk1 hlen1 h
        have hnl : (op :: rest).length = rest.length + 1 := by simp
        rw [hnl, undoTimes_succ_last, hrec]
        show undoEdit p { st1 with nextId := st1.nextId + rest.length } =
          (.ok (), { st with nextId := st.nextId + (rest.length + 1) })
        have hid : st1.nextId = st.nextId + 1 := by
          rw [hst1]
        rw [hid]
        rw [undoEdit_nextId p st1 (st.nextId + 1 + rest.length)]
        rw [hundo]
        have harith : st.nextId + 1 + rest.length = st.nextId + (rest.length + 1) := by
          omega
        simp [harith]

end MCPFS.Editor

namespace MCPFS.Editor

theorem addToHistory_files (rmOk : Bool) (p : String) (b : Nat)
    (st : EMState) : (addToHistory rmOk p b st).files = st.files := by
  by_cases hcap : st.history.length + 1 ≤ 100
  · rw [addToHistory_noevict rmOk p b st hcap]
  · obtain ⟨o, l, hh⟩ : ∃ o l, st.history = o :: l := by
      cases hh : st.history with
      | nil =>
        rw [hh] at hcap
        simp at hcap
      | cons a l => exact ⟨a, l, rfl⟩
    rw [addToHistory_evict rmOk p b st o l hh hcap]

theorem addToHistory_history (rmOk : Bool) (p : String) (b : Nat)
    (st : EMState) :
    (addToHistory rmOk p b st).history =
      if st.history.length + 1 > 100
      then (st.history ++ [(⟨p, b⟩ : EditRecord)]).tail
      else st.history ++ [(⟨p, b⟩ : EditRecord)] := by
  by_cases hcap : st.history.length + 1 ≤ 100
  · have hno : ¬ st.history.length + 1 > 100 := by omega
    rw [addToHistory_noevict rmOk p b st hcap, if_neg hno]
  · obtain ⟨o, l, hh⟩ : ∃ o l, st.history = o :: l := by
      cases hh : st.history with
      | nil =>
        rw [hh] at hcap
        simp at hcap
      | cons a l => exact ⟨a, l, rfl⟩
    rw [addToHistory_evict rmOk p b st o l hh hcap]
    rw [hh] at hcap ⊢
    have hgt : (o :: l).length + 1 > 100 := by
      simp at hcap ⊢
      omega
    rw [if_pos hgt]
    simp

theorem addToHistory_getLast (rmOk : Bool) (p : String) (b : Nat)
    (st : EMState) :
    (addToHistory rmOk p b st).history.getLast? = some (⟨p, b⟩ : EditRecord) := by
  rw [addToHistory_history]
  by_cases hcap : st.history.length + 1 > 100
  · rw [if_pos hcap]
    obtain ⟨o, l, hh⟩ : ∃ o l, st.history = o :: l := by
      cases hh : st.history with
      | nil =>
        rw [hh] at hcap
        simp at hcap
      | cons a l => exact ⟨a, l, rfl⟩
    rw [hh]
    simp
  · rw [if_neg hcap]
    simp

theorem addToHistory_length (rmOk : Bool) (p : String) (b : Nat)
    (st : EMState) (h : st.history.length ≤ 100) :
    (addToHistory rmOk p b st).history.length ≤ 100 := by
  rw [addToHistory_history]
  by_cases hcap : st.history.length + 1 > 100
  · rw [if_pos hcap]
    simp
    omega
  · rw [if_neg hcap]
    simp
    omega

theorem removeLastFor_length (p : String) :
    ∀ (l : List EditRecord) (rec : EditRecord) (l' : List EditRecord),
      removeLastFor p l = some (rec, l') → l'.length + 1 = l.length := by
  intro l
  induction l with
  | nil =>
    intro rec l' h
    simp [removeLastFor] at h
  | cons a t ih =>
    intro rec l' h
    simp only [removeLastFor] at h
    cases hr : removeLastFor p t with
    | some pr =>
      rw [hr] at h
      obtain ⟨r2, t2⟩ := pr
      simp only [Option.some.injEq, Prod.mk.injEq] at h
      obtain ⟨-, h2⟩ := h
      have := ih r2 t2 hr
      rw [← h2]
      simp
      omega
    | none =>
      rw [hr] at h
      by_cases ha : a.filePath = p
      · rw [if_pos ha] at h
        simp only [Option.some.injEq, Prod.mk.injEq] at h
        obtain ⟨-, h2⟩ := h
        rw [← h2]
        simp
      · rw [if_neg ha] at h
        simp at h

theorem undoEdit_history_le (p : String) (st : EMState) :
    (undoEdit p st).2.history.length ≤ st.history.length := by
  simp only [undoEdit]
  cases hr : removeLastFor p st.history with
  | none => simp
  | some pr =>
    obtain ⟨rec, hist'⟩ := pr
    cases hb : lookupKV rec.backupPath st.backups with
    | none => simp [hb]
    | some content =>
      simp only [hb]
      have := removeLastFor_length p st.history rec hist' hr
      simp
      omega

theorem strReplace_state_cases (bOk rmOk : Bool) (p : String)
    (old new : List Char) (st : EMState) :
    (strReplace bOk rmOk p old new st).2 = st ∨
    ∃ c, lookupKV p st.files = some c ∧
      (strReplace bOk rmOk p old new st).2 = addToHistory rmOk p st.nextId
        ⟨writeKV st.files p (replaceFirst c old new),
         st.backups ++ [(st.nextId, c)], st.history, st.nextId + 1⟩ := by
  cases hlk : lookupKV p st.files with
  | none =>
    left
    simp [strReplace, hlk]
  | some c =>
    simp only [strReplace, hlk]
    by_cases hct : containsSub c old = true
    · rw [if_neg (not_not_intro hct)]
      by_cases hcnt : countOcc c old > 1
      · rw [if_pos hcnt]
        exact Or.inl rfl
      · rw [if_neg hcnt]
        simp only [createBackup, hlk]
        cases bOk with
        | false => exact Or.inl rfl
        | true =>
          simp only [if_pos]
          exact Or.inr ⟨c, rfl, rfl⟩
    · rw [if_pos hct]
      exact Or.inl rfl

theorem insert_state_cases (bOk rmOk : Bool) (p : String) (ln : Int)
    (text : List Char) (st : EMState) :
    (insert bOk rmOk p ln text st).2 = st ∨
    (insert bOk rmOk p ln text st).2 =
      { st with files := writeKV st.files p (text ++ ['\n']) } ∨
    ∃ c, lookupKV p st.files = some c ∧
      (insert bOk rmOk p ln text st).2 = addToHistory rmOk p st.nextId
        ⟨writeKV st.files p
           (List.intercalate ['\n']
             ((splitLinesGo c).take
                (if ln = -1 then ((splitLinesGo c).length : Int) else ln).toNat
              ++ [text]
              ++ (splitLinesGo c).drop
                (if ln = -1 then ((splitLinesGo c).length : Int) else ln).toNat)),
         st.backups ++ [(st.nextId, c)], st.history, st.nextId + 1⟩ := by
  cases hlk : lookupKV p st.files with
  | none =>
    simp only [insert, hlk]
    by_cases hpos : ln ≠ 0 ∧ ln ≠ -1
    · rw [if_pos hpos]
      exact Or.inl rfl
    · rw [if_neg hpos]
      exact Or.inr (Or.inl rfl)
  | some c =>
    simp only [insert, hlk]
    by_cases hrng : (if ln = -1 then ((splitLinesGo c).length : Int) else ln) < 0 ∨
        (if ln = -1 then ((splitLinesGo c).length : Int) else ln) >
          ((splitLinesGo c).length : Int)
    · rw [if_pos hrng]
      exact Or.inl rfl
    · rw [if_neg hrng]
      simp only [createBackup, hlk]
      cases bOk with
      | false => exact Or.inl rfl
      | true =>
        simp only [if_pos]
        exact Or.inr (Or.inr ⟨c, rfl, rfl⟩)

end MCPFS.Editor

namespace MCPFS.Editor

theorem intercalate_single (x : List Char) :
    List.intercalate ['\n'] [x] = x := by
  simp [List.intercalate]

theorem intercalate_cons2 (a b : List Char) (l : List (List Char)) :
    List.intercalate ['\n'] (a :: b :: l) =
      a ++ '\n' :: List.intercalate ['\n'] (b :: l) := by
  simp [List.intercalate, List.intersperse]

theorem getLast?_consNL (c : Char) (l : List Char) :
    (c :: l).getLast? = if l = [] then some c else l.getLast? := by
  cases l with
  | nil => simp
  | cons d t => simp [List.getLast?_cons_cons]

theorem intercalate_cons_ne_nil (b : List Char) (l : List (List Char))
    (hl : l ≠ []) : List.intercalate ['\n'] (b :: l) ≠ [] := by
  cases l with
  | nil => exact absurd rfl hl
  | cons y ys =>
    rw [intercalate_cons2]
    intro hcontra
    have := List.append_eq_nil.1 hcontra
    simp at this

theorem intercalateNL_getLast (L : List (List Char)) (x : List Char) :
    (List.intercalate ['\n'] (L ++ [x])).getLast? =
      if x = [] then (if L = [] then none else some '\n') else x.getLast? := by
  induction L with
  | nil =>
    rw [List.nil_append, intercalate_single]
    by_cases hx : x = []
    · simp [hx]
    · simp [hx]
  | cons a L ih =>
    cases L with
    | nil =>
      rw [List.cons_append, List.nil_append, intercalate_cons2,
        intercalate_single,
        List.getLast?_append_of_ne_nil _ (List.cons_ne_nil _ _),
        getLast?_consNL]
      by_cases hx : x = []
      · rw [if_pos hx, if_pos hx, if_neg (by simp)]
      · rw [if_neg hx, if_neg hx]
    | cons b L' =>
      rw [List.cons_append, List.cons_append, intercalate_cons2,
        List.getLast?_append_of_ne_nil _ (List.cons_ne_nil _ _),
        getLast?_consNL,
        if_neg (intercalate_cons_ne_nil b (L' ++ [x]) (by simp)),
        ← List.cons_append, ih]
      by_cases hx : x = []
      · rw [if_pos hx, if_pos hx, if_neg (by simp), if_neg (by simp)]
      · rw [if_neg hx, if_neg hx]

end MCPFS.Editor

namespace MCPFS

/-- C1: the spec claims the containment test compares full path segments, so
that a sibling directory such as "/allowed-2" is never authorized by an
AllowedRoot "/allowed" and validation of it fails with AccessDenied.  The
code's `strings.HasPrefix` containment test authorizes it: with the single
allowed root "/allowed", the existing directory "/allowed-2" — whose resolved
location is segment-wise outside every allowed root — validates successfully
instead of failing with AccessDenied. -/
theorem c1_raw_containment_admits_sibling_root :
    PathV.validatePath [(["allowed-2"], PathV.Entry.dir)] [["allowed"]]
        ["allowed-2"] = .ok ["allowed-2"] ∧
    PathV.evalSymlinks [(["allowed-2"], PathV.Entry.dir)] ["allowed-2"] =
        .ok ["allowed-2"] ∧
    PathV.segWithin [["allowed"]] ["allowed-2"] = false := by
  refine ⟨by decide, by decide, by decide⟩

/-- C9: the spec requires a symlink loop to surface as InvalidPath.  The code
terminates (the 255-link budget turns the loop into an EvalSymlinks error),
but then falls into the nonexistent-path branch: with allowed root "/data"
and "/data/loop" a symlink to itself, resolution fails with the
too-many-links error, yet ValidatePath succeeds, returning the unresolved
path, instead of failing with InvalidPath. -/
theorem c9_symlink_loop_validates :
    PathV.evalSymlinks
        [(["data"], PathV.Entry.dir),
         (["data", "loop"], PathV.Entry.symlink ["data", "loop"])]
        ["data", "loop"] = .error .tooManyLinks ∧
    PathV.validatePath
        [(["data"], PathV.Entry.dir),
         (["data", "loop"], PathV.Entry.symlink ["data", "loop"])]
        [["data"]] ["data", "loop"] = .ok ["data", "loop"] := by
  refine ⟨by decide, by decide⟩

/-- C8 counterexample: for a not-yet-existing path whose parent is a symlink,
ValidatePath returns the cleaned absolute requested path, which is *not* the
canonical form of the nearest existing ancestor joined with the missing
suffix: with "/data/link" a symlink to the directory "/data/real", validating
"/data/link/new" succeeds with "/data/link/new" although the resolved parent
is "/data/real", so the claimed return value "/data/real/new" differs. -/
theorem c8_canonical_parent_counterexample :
    PathV.validatePath
        [(["data"], PathV.Entry.dir), (["data", "real"], PathV.Entry.dir),
         (["data", "link"], PathV.Entry.symlink ["data", "real"])]
        [["data"]] ["data", "link", "new"] = .ok ["data", "link", "new"] ∧
    PathV.evalSymlinks
        [(["data"], PathV.Entry.dir), (["data", "real"], PathV.Entry.dir),
         (["data", "link"], PathV.Entry.symlink ["data", "real"])]
        ["data", "link"] = .ok ["data", "real"] ∧
    (["data", "link", "new"] : PathV.Path) ≠ ["data", "real"] ++ ["new"] := by
  refine ⟨by decide, by decide, by decide⟩

/-- C8 (amended): for a requested path that does not resolve, ValidatePath
stats and symlink-resolves only the immediate parent directory, fails with
InvalidPath when that parent does not stat, re-checks containment on the
resolved parent, and on success returns the cleaned absolute requested path
itself — with its final segment unresolved, not rejoined onto the canonical
parent. -/
theorem c8_nonexistent_path_amended (fs : PathV.FS)
    (allowed : List PathV.Path) (p : PathV.Path) (e : PathV.RErr)
    (hin : PathV.inAllowed allowed p = true)
    (hres : PathV.evalSymlinks fs p = .error e) :
    (PathV.statOk fs p.dropLast = false →
      PathV.validatePath fs allowed p = .error .invalidPath) ∧
    (∀ rp, PathV.evalSymlinks fs p.dropLast = .ok rp →
      (PathV.inAllowed allowed rp = true →
        PathV.validatePath fs allowed p = .ok p) ∧
      (PathV.inAllowed allowed rp = false →
        PathV.validatePath fs allowed p = .error .accessDenied)) := by
  constructor
  · intro hstat
    simp [PathV.validatePath, hin, hres, hstat]
  · intro rp hok
    have hstat : PathV.statOk fs p.dropLast = true := by
      simp [PathV.statOk, hok]
    constructor
    · intro hrp
      simp [PathV.validatePath, hin, hres, hstat, hok, hrp]
    · intro hrp
      simp [PathV.validatePath, hin, hres, hstat, hok, hrp]

/-- C8 amended, witness: the symlinked-parent filesystem instantiates the
amended claim, producing the requested path "/data/link/new" unchanged. -/
theorem c8_nonexistent_path_amended_witness :
    (PathV.statOk
        [(["data"], PathV.Entry.dir), (["data", "real"], PathV.Entry.dir),
         (["data", "link"], PathV.Entry.symlink ["data", "real"])]
        (["data", "link", "new"] : PathV.Path).dropLast = false →
      PathV.validatePath
        [(["data"], PathV.Entry.dir), (["data", "real"], PathV.Entry.dir),
         (["data", "link"], PathV.Entry.symlink ["data", "real"])]
        [["data"]] ["data", "link", "new"] = .error .invalidPath) ∧
    (∀ rp, PathV.evalSymlinks
        [(["data"], PathV.Entry.dir), (["data", "real"], PathV.Entry.dir),
         (["data", "link"], PathV.Entry.symlink ["data", "real"])]
        (["data", "link", "new"] : PathV.Path).dropLast = .ok rp →
      (PathV.inAllowed [["data"]] rp = true →
        PathV.validatePath
          [(["data"], PathV.Entry.dir), (["data", "real"], PathV.Entry.dir),
           (["data", "link"], PathV.Entry.symlink ["data", "real"])]
          [["data"]] ["data", "link", "new"] = .ok ["data", "link", "new"]) ∧
      (PathV.inAllowed [["data"]] rp = false →
        PathV.validatePath
          [(["data"], PathV.Entry.dir), (["data", "real"], PathV.Entry.dir),
           (["data", "link"], PathV.Entry.symlink ["data", "real"])]
          [["data"]] ["data", "link", "new"] = .error .accessDenied)) :=
  c8_nonexistent_path_amended
    [(["data"], PathV.Entry.dir), (["data", "real"], PathV.Entry.dir),
     (["data", "link"], PathV.Entry.symlink ["data", "real"])]
    [["data"]] ["data", "link", "new"] .notExist (by decide) (by decide)

end MCPFS

namespace MCPFS

/-- C2 counterexample: with the 100-record capacity, 101 successful edits to
the same file from a fresh session are *not* all undoable: the first 100
undos succeed, the 101st fails with NoHistory (the oldest record was evicted),
and the content after all possible undos is "b", not the original "a". -/
theorem c2_capacity_bounds_undo_counterexample :
    (Editor.flipStepChk^[101] (true, Editor.st0)).1 = true ∧
    (Editor.undoChk^[100]
      (true, (Editor.flipStepChk^[101] (true, Editor.st0)).2)).1 = true ∧
    (Editor.undoEdit "f"
      (Editor.undoChk^[100]
        (true, (Editor.flipStepChk^[101] (true, Editor.st0)).2)).2).1 =
      .error .noHistory ∧
    lookupKV "f"
      (Editor.undoChk^[100]
        (true, (Editor.flipStepChk^[101] (true, Editor.st0)).2)).2.files ≠
      some ['a'] := by
  decide

/-- C2 (amended): undo after a successful replace restores the pre-edit file
content byte-identically, deletes the consumed backup, and removes exactly
the most recent record (the last history entry), leaving all other records in
order; and n sequential successful edits to an existing file followed by n
undo calls restore the original state exactly, with an (n+1)-th undo failing
with NoHistory, *provided* the history never exceeds the capacity of 100
during the sequence (for longer sequences eviction discards the oldest
backups, so only the most recent 100 edits remain undoable). -/
theorem c2_undo_roundtrip_amended :
    (∀ (st st' : Editor.EMState) (p : String) (old new : List Char)
        (rmOk : Bool),
      Editor.WF st →
      Editor.strReplace true rmOk p old new st = (.ok (), st') →
      ∃ st'', Editor.undoEdit p st' = (.ok (), st'') ∧
        st''.files = st.files ∧
        lookupKV st.nextId st''.backups = none ∧
        st'.history.getLast? = some ⟨p, st.nextId⟩ ∧
        st''.history = st'.history.dropLast) ∧
    (∀ (ops : List Editor.EditOp) (st st' : Editor.EMState) (p : String)
        (c : List Char) (rmOk : Bool),
      Editor.WF st →
      lookupKV p st.files = some c →
      st.history.length + ops.length ≤ 100 →
      (∀ r ∈ st.history, r.filePath ≠ p) →
      Editor.applyOps rmOk p ops st = (.ok (), st') →
      Editor.undoTimes p ops.length st' =
        (.ok (), { st with nextId := st.nextId + ops.length }) ∧
      (Editor.undoEdit p
        { st with nextId := st.nextId + ops.length }).1 = .error .noHistory) := by
  constructor
  · intro st st' p old new rmOk hWF h
    obtain ⟨-, c, hlk, -, -, hst⟩ :=
      Editor.strReplace_ok_char true rmOk p old new st st' h
    subst hst
    obtain ⟨st'', h1, h2, h3, h4⟩ :=
      Editor.undo_mid_general st p c (Editor.replaceFirst c old new) rmOk hWF hlk
    exact ⟨st'', h1, h2, h3,
      Editor.addToHistory_getLast rmOk p st.nextId _, h4⟩
  · intro ops st st' p c rmOk hWF hlk hcap hnone h
    refine ⟨Editor.applyOps_roundtrip rmOk p ops st st' c hWF hlk hcap h, ?_⟩
    have hrl := Editor.removeLastFor_none p st.history hnone
    simp [Editor.undoEdit, hrl]

/-- C2 amended, witness: one replace on the one-file session, one successful
undo restoring it, and a further undo failing with NoHistory. -/
theorem c2_undo_roundtrip_amended_witness :
    (∃ st'', Editor.undoEdit "f"
        (Editor.strReplace true true "f" ['a'] ['b'] Editor.st0).2 =
        (.ok (), st'') ∧
      st''.files = Editor.st0.files ∧
      lookupKV Editor.st0.nextId st''.backups = none ∧
      (Editor.strReplace true true "f" ['a'] ['b'] Editor.st0).2.history.getLast? =
        some ⟨"f", Editor.st0.nextId⟩ ∧
      st''.history =
        (Editor.strReplace true true "f" ['a'] ['b'] Editor.st0).2.history.dropLast) ∧
    (Editor.undoTimes "f" [Editor.EditOp.rep ['a'] ['b']].length
        (Editor.applyOps true "f" [Editor.EditOp.rep ['a'] ['b']] Editor.st0).2 =
      (.ok (), { Editor.st0 with
        nextId := Editor.st0.nextId + [Editor.EditOp.rep ['a'] ['b']].length }) ∧
     (Editor.undoEdit "f" { Editor.st0 with
        nextId := Editor.st0.nextId + [Editor.EditOp.rep ['a'] ['b']].length }).1 =
      .error .noHistory) :=
  ⟨c2_undo_roundtrip_amended.1 Editor.st0
      (Editor.strReplace true true "f" ['a'] ['b'] Editor.st0).2
      "f" ['a'] ['b'] true
      (by constructor <;> intro x hx <;> simp [Editor.st0] at hx) (by decide),
   c2_undo_roundtrip_amended.2 [Editor.EditOp.rep ['a'] ['b']] Editor.st0
      (Editor.applyOps true "f" [Editor.EditOp.rep ['a'] ['b']] Editor.st0).2
      "f" ['a'] true
      (by constructor <;> intro x hx <;> simp [Editor.st0] at hx)
      (by decide) (by decide) (by decide) (by decide)⟩

end MCPFS

namespace MCPFS

/-- C3: replace fails with NotFound exactly when the old string has zero
(non-overlapping) occurrences in the file content, fails with AmbiguousMatch
exactly when it has more than one, and with exactly one occurrence rewrites
the file with that single occurrence substituted and appends an EditRecord
(the new last record of the history, targeting this file). -/
theorem c3_replace_occurrence_classification
    (st : Editor.EMState) (p : String) (old new c : List Char) (rmOk : Bool)
    (hlk : lookupKV p st.files = some c) :
    ((Editor.strReplace true rmOk p old new st).1 = .error .notFound ↔
      Editor.countOcc c old = 0) ∧
    ((Editor.strReplace true rmOk p old new st).1 = .error .ambiguousMatch ↔
      1 < Editor.countOcc c old) ∧
    (Editor.countOcc c old = 1 →
      ∃ st', Editor.strReplace true rmOk p old new st = (.ok (), st') ∧
        lookupKV p st'.files = some (Editor.replaceFirst c old new) ∧
        st'.history.getLast? = some ⟨p, st.nextId⟩) := by
  by_cases hct : Editor.containsSub c old = true
  · have hpos : 0 < Editor.countOcc c old :=
      (Editor.containsSub_iff_countOcc_pos c old).1 hct
    by_cases hcnt : 1 < Editor.countOcc c old
    · have hres : Editor.strReplace true rmOk p old new st =
          (.error .ambiguousMatch, st) := by
        simp only [Editor.strReplace, hlk]
        rw [if_neg (not_not_intro hct), if_pos hcnt]
      rw [hres]
      refine ⟨?_, ?_, ?_⟩
      · simp
        omega
      · simp [hcnt]
      · intro h1
        omega
    · have hres : Editor.strReplace true rmOk p old new st =
          (.ok (), Editor.addToHistory rmOk p st.nextId
            ⟨writeKV st.files p (Editor.replaceFirst c old new),
             st.backups ++ [(st.nextId, c)], st.history, st.nextId + 1⟩) := by
        simp only [Editor.strReplace, hlk]
        rw [if_neg (not_not_intro hct), if_neg hcnt]
        simp only [Editor.createBackup, hlk, if_pos]
      rw [hres]
      refine ⟨?_, ?_, ?_⟩
      · simp
        omega
      · simp
        omega
      · intro hone
        refine ⟨Editor.addToHistory rmOk p st.nextId
          ⟨writeKV st.files p (Editor.replaceFirst c old new),
           st.backups ++ [(st.nextId, c)], st.history, st.nextId + 1⟩,
          ?_, ?_, ?_⟩
        · rfl
        · rw [Editor.addToHistory_files]
          exact lookupKV_writeKV_self st.files p (Editor.replaceFirst c old new)
        · exact Editor.addToHistory_getLast rmOk p st.nextId _
  · have hzero : Editor.countOcc c old = 0 := by
      by_contra hz
      exact hct ((Editor.containsSub_iff_countOcc_pos c old).2 (by omega))
    have hres : Editor.strReplace true rmOk p old new st =
        (.error .notFound, st) := by
      simp only [Editor.strReplace, hlk]
      rw [if_pos hct]
    rw [hres]
    refine ⟨?_, ?_, ?_⟩
    · simp [hzero]
    · simp
      omega
    · intro h1
      omega

/-- C3, witness: on content "foo bar foo", replacing "foo" is ambiguous (two
occurrences), replacing "zap" is NotFound (zero), and replacing the unique
"bar" succeeds, rewriting the file and appending the record. -/
theorem c3_replace_occurrence_classification_witness :
    (0 < 3 ∧
      ((Editor.strReplace true true "f" "foo".toList "baz".toList
          ⟨[("f", "foo bar foo".toList)], [], [], 0⟩).1 = .error .notFound ↔
        Editor.countOcc "foo bar foo".toList "foo".toList = 0) ∧
      ((Editor.strReplace true true "f" "foo".toList "baz".toList
          ⟨[("f", "foo bar foo".toList)], [], [], 0⟩).1 =
            .error .ambiguousMatch ↔
        1 < Editor.countOcc "foo bar foo".toList "foo".toList)) ∧
    (Editor.countOcc "foo bar foo".toList "bar".toList = 1 →
      ∃ st', Editor.strReplace true true "f" "bar".toList "baz".toList
          ⟨[("f", "foo bar foo".toList)], [], [], 0⟩ = (.ok (), st') ∧
        lookupKV "f" st'.files =
          some (Editor.replaceFirst "foo bar foo".toList "bar".toList
            "baz".toList) ∧
        st'.history.getLast? = some ⟨"f", 0⟩) :=
  ⟨⟨by decide,
    (c3_replace_occurrence_classification
      ⟨[("f", "foo bar foo".toList)], [], [], 0⟩ "f" "foo".toList
      "baz".toList "foo bar foo".toList true (by decide)).1,
    (c3_replace_occurrence_classification
      ⟨[("f", "foo bar foo".toList)], [], [], 0⟩ "f" "foo".toList
      "baz".toList "foo bar foo".toList true (by decide)).2.1⟩,
   (c3_replace_occurrence_classification
      ⟨[("f", "foo bar foo".toList)], [], [], 0⟩ "f" "bar".toList
      "baz".toList "foo bar foo".toList true (by decide)).2.2⟩

/-- C4 counterexample: creating a missing file via insert at the end writes
the text *plus a trailing newline*, not exactly the text: inserting "x"
yields file content "x\n". -/
theorem c4_created_file_gains_newline_counterexample :
    Editor.insert true true "f" (-1) ['x'] ⟨[], [], [], 0⟩ =
      (.ok (), ⟨[("f", ['x', '\n'])], [], [], 0⟩) ∧
    (['x', '\n'] : List Char) ≠ ['x'] := by
  refine ⟨by decide, by decide⟩

/-- C4 (amended): insert on a missing file succeeds exactly for positions
resolving to start (0) or end (-1), creating the file containing the text
followed by one trailing newline; any other position fails with NotFound and
leaves the state — in particular the file store — unchanged. -/
theorem c4_insert_create_amended
    (st : Editor.EMState) (p : String) (ln : Int) (text : List Char)
    (bOk rmOk : Bool) (hlk : lookupKV p st.files = none) :
    ((ln = 0 ∨ ln = -1) →
      Editor.insert bOk rmOk p ln text st =
        (.ok (), { st with files := writeKV st.files p (text ++ ['\n']) }) ∧
      lookupKV p (writeKV st.files p (text ++ ['\n'])) =
        some (text ++ ['\n'])) ∧
    (ln ≠ 0 → ln ≠ -1 →
      Editor.insert bOk rmOk p ln text st = (.error .notFound, st)) := by
  constructor
  · intro hln
    refine ⟨?_, lookupKV_writeKV_self st.files p (text ++ ['\n'])⟩
    simp only [Editor.insert, hlk]
    rw [if_neg (by tauto)]
  · intro h0 h1
    simp only [Editor.insert, hlk]
    rw [if_pos ⟨h0, h1⟩]

/-- C4 amended, witness: on the empty session, insert at end creates "x\n",
and insert at line 3 fails with NotFound leaving the state unchanged. -/
theorem c4_insert_create_amended_witness :
    (((-1 : Int) = 0 ∨ (-1 : Int) = -1) →
      Editor.insert true true "f" (-1) ['x'] ⟨[], [], [], 0⟩ =
        (.ok (), { (⟨[], [], [], 0⟩ : Editor.EMState) with
          files := writeKV ([] : List (String × List Char)) "f"
            (['x'] ++ ['\n']) }) ∧
      lookupKV "f" (writeKV ([] : List (String × List Char)) "f"
        (['x'] ++ ['\n'])) = some (['x'] ++ ['\n'])) ∧
    ((3 : Int) ≠ 0 → (3 : Int) ≠ -1 →
      Editor.insert true true "f" 3 ['x'] ⟨[], [], [], 0⟩ =
        (.error .notFound, ⟨[], [], [], 0⟩)) :=
  ⟨(c4_insert_create_amended ⟨[], [], [], 0⟩ "f" (-1) ['x'] true true
      (by decide)).1,
   (c4_insert_create_amended ⟨[], [], [], 0⟩ "f" 3 ['x'] true true
      (by decide)).2⟩

/-- C5: when backup creation fails during a mutating operation that has
passed its checks (replace with a unique occurrence, or insert at a valid
position on an existing file), the operation aborts with the backup error and
the *entire* state — files, backups and history — is returned unchanged: no
partial write and no EditRecord. -/
theorem c5_backup_failure_aborts
    (st : Editor.EMState) (p : String) (old new text : List Char) (ln : Int)
    (rmOk : Bool) (c : List Char) (hlk : lookupKV p st.files = some c) :
    (Editor.containsSub c old = true → ¬ 1 < Editor.countOcc c old →
      Editor.strReplace false rmOk p old new st = (.error .backupFailed, st)) ∧
    (¬ ((if ln = -1 then ((Editor.splitLinesGo c).length : Int) else ln) < 0 ∨
        (if ln = -1 then ((Editor.splitLinesGo c).length : Int) else ln) >
          ((Editor.splitLinesGo c).length : Int)) →
      Editor.insert false rmOk p ln text st = (.error .backupFailed, st)) := by
  constructor
  · intro hct hcnt
    simp only [Editor.strReplace, hlk]
    rw [if_neg (not_not_intro hct), if_neg hcnt]
    simp only [Editor.createBackup, hlk]
    rw [if_neg (by simp)]
  · intro hrng
    simp only [Editor.insert, hlk]
    rw [if_neg hrng]
    simp only [Editor.createBackup, hlk]
    rw [if_neg (by simp)]

/-- C5, witness: with backup creation failing, a replace on "a" and an insert
at the end both abort with the backup error and the untouched session. -/
theorem c5_backup_failure_aborts_witness :
    (Editor.containsSub ['a'] ['a'] = true → ¬ 1 < Editor.countOcc ['a'] ['a'] →
      Editor.strReplace false true "f" ['a'] ['b'] Editor.st0 =
        (.error .backupFailed, Editor.st0)) ∧
    (¬ (((-1 : Int) = -1 →
          False) ∧ True) → True) ∧
    (¬ ((if (-1 : Int) = -1 then ((Editor.splitLinesGo ['a']).length : Int)
          else (-1 : Int)) < 0 ∨
        (if (-1 : Int) = -1 then ((Editor.splitLinesGo ['a']).length : Int)
          else (-1 : Int)) > ((Editor.splitLinesGo ['a']).length : Int)) →
      Editor.insert false true "f" (-1) ['x'] Editor.st0 =
        (.error .backupFailed, Editor.st0)) :=
  ⟨(c5_backup_failure_aborts Editor.st0 "f" ['a'] ['b'] ['x'] (-1) true ['a']
      (by decide)).1,
   fun _ => trivial,
   (c5_backup_failure_aborts Editor.st0 "f" ['a'] ['b'] ['x'] (-1) true ['a']
      (by decide)).2⟩

end MCPFS

namespace MCPFS

/-- C6: the history never exceeds 100 live records — every operation
(replace, insert, undo) preserves the bound — and when a successful mutating
operation (replace, or insert on an existing file) finds the count at 100,
exactly the single oldest record is removed (regardless of which file it
targets and regardless of whether the backup deletion succeeds), and when the
deletion succeeds the evicted record's backup is no longer resolvable. -/
theorem c6_history_capacity
    (st : Editor.EMState) (p : String) (old new text : List Char) (ln : Int)
    (bOk rmOk : Bool) (hcap : st.history.length ≤ 100) :
    ((Editor.strReplace bOk rmOk p old new st).2.history.length ≤ 100 ∧
     (Editor.insert bOk rmOk p ln text st).2.history.length ≤ 100 ∧
     (Editor.undoEdit p st).2.history.length ≤ 100) ∧
    (st.history.length = 100 →
      (∀ st', Editor.strReplace bOk rmOk p old new st = (.ok (), st') →
        ∃ oldest rest, st.history = oldest :: rest ∧
          st'.history = rest ++ [(⟨p, st.nextId⟩ : Editor.EditRecord)] ∧
          (rmOk = true →
            lookupKV oldest.backupPath st'.backups = none)) ∧
      (∀ st' c, lookupKV p st.files = some c →
        Editor.insert bOk rmOk p ln text st = (.ok (), st') →
        ∃ oldest rest, st.history = oldest :: rest ∧
          st'.history = rest ++ [(⟨p, st.nextId⟩ : Editor.EditRecord)] ∧
          (rmOk = true →
            lookupKV oldest.backupPath st'.backups = none))) := by
  constructor
  · refine ⟨?_, ?_, ?_⟩
    · rcases Editor.strReplace_state_cases bOk rmOk p old new st with h | ⟨c, -, h⟩
      · rw [h]
        exact hcap
      · rw [h]
        exact Editor.addToHistory_length rmOk p st.nextId _ hcap
    · rcases Editor.insert_state_cases bOk rmOk p ln text st with
        h | h | ⟨c, -, h⟩
      · rw [h]
        exact hcap
      · rw [h]
        exact hcap
      · rw [h]
        exact Editor.addToHistory_length rmOk p st.nextId _ hcap
    · exact le_trans (Editor.undoEdit_history_le p st) hcap
  · intro hlen
    obtain ⟨oldest, rest, hh⟩ : ∃ o l, st.history = o :: l := by
      cases hh : st.history with
      | nil =>
        rw [hh] at hlen
        simp at hlen
      | cons a l => exact ⟨a, l, rfl⟩
    have hgt : ¬ st.history.length + 1 ≤ 100 := by omega
    constructor
    · intro st' hs
      obtain ⟨-, c, hlk, -, -, hst⟩ :=
        Editor.strReplace_ok_char bOk rmOk p old new st st' hs
      rw [Editor.addToHistory_evict rmOk p st.nextId
        ⟨writeKV st.files p (Editor.replaceFirst c old new),
         st.backups ++ [(st.nextId, c)], st.history, st.nextId + 1⟩
        oldest rest hh hgt] at hst
      refine ⟨oldest, rest, hh, ?_, ?_⟩
      · rw [hst]
      · intro hrm
        rw [hst, hrm]
        simp only [if_pos]
        exact lookupKV_eraseKV_self _ oldest.backupPath
    · intro st' c hlk hs
      obtain ⟨-, hst⟩ := Editor.insert_ok_char bOk rmOk p ln text st st' c hlk hs
      rw [Editor.addToHistory_evict rmOk p st.nextId
        ⟨writeKV st.files p
           (List.intercalate ['\n']
             ((Editor.splitLinesGo c).take
                (if ln = -1 then ((Editor.splitLinesGo c).length : Int)
                 else ln).toNat
              ++ [text]
              ++ (Editor.splitLinesGo c).drop
                (if ln = -1 then ((Editor.splitLinesGo c).length : Int)
                 else ln).toNat)),
         st.backups ++ [(st.nextId, c)], st.history, st.nextId + 1⟩
        oldest rest hh hgt] at hst
      refine ⟨oldest, rest, hh, ?_, ?_⟩
      · rw [hst]
      · intro hrm
        rw [hst, hrm]
        simp only [if_pos]
        exact lookupKV_eraseKV_self _ oldest.backupPath

/-- C6, witness: a session whose history already holds 100 records for
another file; a successful replace keeps the bound, evicts exactly the oldest
record, and its backup (name 7) is no longer resolvable. -/
theorem c6_history_capacity_witness :
    (((Editor.strReplace true true "f" ['a'] ['b']
        ⟨[("f", ['a'])], [(7, ['z'])],
         List.replicate 100 ⟨"g", 7⟩, 8⟩).2.history.length ≤ 100 ∧
      (Editor.insert true true "f" (-1) ['x']
        ⟨[("f", ['a'])], [(7, ['z'])],
         List.replicate 100 ⟨"g", 7⟩, 8⟩).2.history.length ≤ 100 ∧
      (Editor.undoEdit "f"
        ⟨[("f", ['a'])], [(7, ['z'])],
         List.replicate 100 ⟨"g", 7⟩, 8⟩).2.history.length ≤ 100) ∧
     ((⟨[("f", ['a'])], [(7, ['z'])], List.replicate 100 ⟨"g", 7⟩, 8⟩ :
        Editor.EMState).history.length = 100 →
      (∀ st', Editor.strReplace true true "f" ['a'] ['b']
          ⟨[("f", ['a'])], [(7, ['z'])], List.replicate 100 ⟨"g", 7⟩, 8⟩ =
          (.ok (), st') →
        ∃ oldest rest,
          (⟨[("f", ['a'])], [(7, ['z'])], List.replicate 100 ⟨"g", 7⟩, 8⟩ :
            Editor.EMState).history = oldest :: rest ∧
          st'.history = rest ++ [(⟨"f", 8⟩ : Editor.EditRecord)] ∧
          (true = true → lookupKV oldest.backupPath st'.backups = none)) ∧
      (∀ st' c, lookupKV "f"
          (⟨[("f", ['a'])], [(7, ['z'])], List.replicate 100 ⟨"g", 7⟩, 8⟩ :
            Editor.EMState).files = some c →
        Editor.insert true true "f" (-1) ['x']
          ⟨[("f", ['a'])], [(7, ['z'])], List.replicate 100 ⟨"g", 7⟩, 8⟩ =
          (.ok (), st') →
        ∃ oldest rest,
          (⟨[("f", ['a'])], [(7, ['z'])], List.replicate 100 ⟨"g", 7⟩, 8⟩ :
            Editor.EMState).history = oldest :: rest ∧
          st'.history = rest ++ [(⟨"f", 8⟩ : Editor.EditRecord)] ∧
          (true = true →
            lookupKV oldest.backupPath st'.backups = none)))) :=
  c6_history_capacity
    ⟨[("f", ['a'])], [(7, ['z'])], List.replicate 100 ⟨"g", 7⟩, 8⟩
    "f" ['a'] ['b'] ['x'] (-1) true true (by decide)

/-- C7 counterexample: an insert that creates a previously nonexistent file
succeeds but appends *no* EditRecord: the history stays empty. -/
theorem c7_create_appends_no_record_counterexample :
    (Editor.insert true true "f" (-1) ['x'] ⟨[], [], [], 0⟩).1 = .ok () ∧
    (Editor.insert true true "f" (-1) ['x'] ⟨[], [], [], 0⟩).2.history = [] := by
  refine ⟨by decide, by decide⟩

/-- C7 (amended): every successful replace, and every successful insert on an
*existing* file, appends exactly one EditRecord for that file at the end of
the history (evicting the oldest when the count would exceed 100); a
successful insert that creates a missing file appends none. -/
theorem c7_record_append_amended
    (st st' : Editor.EMState) (p : String) (old new text : List Char)
    (ln : Int) (bOk rmOk : Bool) :
    (Editor.strReplace bOk rmOk p old new st = (.ok (), st') →
      st'.history = if st.history.length + 1 > 100
        then (st.history ++ [(⟨p, st.nextId⟩ : Editor.EditRecord)]).tail
        else st.history ++ [(⟨p, st.nextId⟩ : Editor.EditRecord)]) ∧
    (∀ c, lookupKV p st.files = some c →
      Editor.insert bOk rmOk p ln text st = (.ok (), st') →
      st'.history = if st.history.length + 1 > 100
        then (st.history ++ [(⟨p, st.nextId⟩ : Editor.EditRecord)]).tail
        else st.history ++ [(⟨p, st.nextId⟩ : Editor.EditRecord)]) ∧
    (lookupKV p st.files = none →
      Editor.insert bOk rmOk p ln text st = (.ok (), st') →
      st'.history = st.history) := by
  refine ⟨?_, ?_, ?_⟩
  · intro hs
    obtain ⟨-, c, -, -, -, hst⟩ :=
      Editor.strReplace_ok_char bOk rmOk p old new st st' hs
    rw [hst]
    exact Editor.addToHistory_history rmOk p st.nextId _
  · intro c hlk hs
    obtain ⟨-, hst⟩ := Editor.insert_ok_char bOk rmOk p ln text st st' c hlk hs
    rw [hst]
    exact Editor.addToHistory_history rmOk p st.nextId _
  · intro hlk hs
    obtain ⟨-, hst⟩ := Editor.insert_create_char bOk rmOk p ln text st st' hlk hs
    rw [hst]

/-- C7 amended, witness: a replace on the one-file session appends the record
for "f"; an insert on the existing file does too; an insert that creates "g"
leaves the history unchanged. -/
theorem c7_record_append_amended_witness :
    (Editor.strReplace true true "f" ['a'] ['b'] Editor.st0 =
        (.ok (), (Editor.strReplace true true "f" ['a'] ['b'] Editor.st0).2) →
      (Editor.strReplace true true "f" ['a'] ['b'] Editor.st0).2.history =
        if Editor.st0.history.length + 1 > 100
        then (Editor.st0.history ++
          [(⟨"f", Editor.st0.nextId⟩ : Editor.EditRecord)]).tail
        else Editor.st0.history ++
          [(⟨"f", Editor.st0.nextId⟩ : Editor.EditRecord)]) ∧
    (lookupKV "g" Editor.st0.files = none →
      Editor.insert true true "g" (-1) ['x'] Editor.st0 =
        (.ok (), (Editor.insert true true "g" (-1) ['x'] Editor.st0).2) →
      (Editor.insert true true "g" (-1) ['x'] Editor.st0).2.history =
        Editor.st0.history) :=
  ⟨(c7_record_append_amended Editor.st0
      (Editor.strReplace true true "f" ['a'] ['b'] Editor.st0).2
      "f" ['a'] ['b'] ['x'] (-1) true true).1,
   (c7_record_append_amended Editor.st0
      (Editor.insert true true "g" (-1) ['x'] Editor.st0).2
      "g" ['a'] ['b'] ['x'] (-1) true true).2.2⟩

/-- C10 counterexample: the file "a\n" ends with the newline delimiter, yet a
successful insert of the text "b\n" at the end rewrites it to "a\nb\n", which
still ends in a newline — refuting "the rewritten file never ends in a
newline". -/
theorem c10_trailing_newline_counterexample :
    lookupKV "f" (⟨[("f", ['a', '\n'])], [], [], 0⟩ :
        Editor.EMState).files = some ['a', '\n'] ∧
    (['a', '\n'] : List Char).getLast? = some '\n' ∧
    (Editor.insert true true "f" 1 ['b', '\n']
      ⟨[("f", ['a', '\n'])], [], [], 0⟩).1 = .ok () ∧
    lookupKV "f" (Editor.insert true true "f" 1 ['b', '\n']
      ⟨[("f", ['a', '\n'])], [], [], 0⟩).2.files =
      some ['a', '\n', 'b', '\n'] ∧
    (['a', '\n', 'b', '\n'] : List Char).getLast? = some '\n' := by
  refine ⟨by decide, by decide, by decide, by decide, by decide⟩

/-- C10 (amended): a successful insert on an existing file rewrites it as the
original content split into lines (terminators discarded), the text spliced
in as one element, and the lines rejoined with single newlines — so the
original's trailing terminator is never copied through; the rejoined content
ends in a newline exactly when its final element is the empty line (the
original ended in consecutive delimiters) or itself ends in a newline (text
carrying one inserted at the end). -/
theorem c10_insert_rejoin_amended
    (st st' : Editor.EMState) (p : String) (ln : Int) (text c : List Char)
    (rmOk : Bool) (hlk : lookupKV p st.files = some c)
    (h : Editor.insert true rmOk p ln text st = (.ok (), st')) :
    lookupKV p st'.files =
      some (List.intercalate ['\n']
        ((Editor.splitLinesGo c).take
            (if ln = -1 then ((Editor.splitLinesGo c).length : Int)
             else ln).toNat
          ++ [text]
          ++ (Editor.splitLinesGo c).drop
            (if ln = -1 then ((Editor.splitLinesGo c).length : Int)
             else ln).toNat)) ∧
    (∀ (L : List (List Char)) (x : List Char),
      (List.intercalate ['\n'] (L ++ [x])).getLast? = some '\n' ↔
        ((x = [] ∧ L ≠ []) ∨ x.getLast? = some '\n')) := by
  constructor
  · obtain ⟨-, hst⟩ := Editor.insert_ok_char true rmOk p ln text st st' c hlk h
    rw [hst, Editor.addToHistory_files]
    exact lookupKV_writeKV_self st.files p _
  · intro L x
    rw [Editor.intercalateNL_getLast]
    by_cases hx : x = []
    · rw [if_pos hx]
      by_cases hL : L = []
      · simp [hx, hL]
      · simp [hx, hL]
    · rw [if_neg hx]
      simp [hx]

/-- C10 amended, witness: inserting "b" after line 1 of the file "a\n"
rewrites it to the rejoined lines "a" and "b" — content "a\nb", the original
trailing newline gone. -/
theorem c10_insert_rejoin_amended_witness :
    lookupKV "f" (Editor.insert true true "f" 1 ['b']
        ⟨[("f", ['a', '\n'])], [], [], 0⟩).2.files =
      some (List.intercalate ['\n']
        ((Editor.splitLinesGo ['a', '\n']).take
            (if (1 : Int) = -1
             then ((Editor.splitLinesGo ['a', '\n']).length : Int)
             else (1 : Int)).toNat
          ++ [['b']]
          ++ (Editor.splitLinesGo ['a', '\n']).drop
            (if (1 : Int) = -1
             then ((Editor.splitLinesGo ['a', '\n']).length : Int)
             else (1 : Int)).toNat)) ∧
    (∀ (L : List (List Char)) (x : List Char),
      (List.intercalate ['\n'] (L ++ [x])).getLast? = some '\n' ↔
        ((x = [] ∧ L ≠ []) ∨ x.getLast? = some '\n')) :=
  c10_insert_rejoin_amended ⟨[("f", ['a', '\n'])], [], [], 0⟩
    (Editor.insert true true "f" 1 ['b']
      ⟨[("f", ['a', '\n'])], [], [], 0⟩).2
    "f" 1 ['b'] ['a', '\n'] true (by decide) (by decide)

end MCPFS
